import Mathlib

/-!
Verification of the crawler core of `vc_email_scraper.py` (with the
`vc_email_scraper_vcsheet.py` variant sharing the same loop structure).

The Python functions are shallowly embedded:
* the regular expressions `MAILTO_RE`, `EMAIL_RE`, `OBFUSCATED_RE` and the
  substitution inside `_norm_obfus` are embedded as backtracking matchers
  (leftmost match, greedy quantifiers, alternation tried left to right,
  case-insensitive as in `re.I`) over `List Char`;
* `extract_emails`, `domain`, `fetch`, `crawl_site`, `hunt_emails` and the
  row construction of `_one` are embedded as executable functions.  Python
  sets are represented as duplicate-free lists (first occurrence kept);
* network I/O is an explicit parameter `web : String → Option String`
  (`none` models a raising `sess.get`, which `fetch` turns into `""`);
  `BeautifulSoup`/`urljoin` link discovery is an explicit parameter
  `links : String → String → List String` producing the candidate absolute
  URLs that the loop body of `crawl_site` then filters;
* the external cancellation by `asyncio.wait_for` after `SITE_TIMEOUT` is
  modelled by the boolean `timedOut` entering `_one`'s exception branch.
-/

/-! ### Character classes (ASCII, as used by the patterns under `re.I`) -/

def wsChar (c : Char) : Bool :=
  c == ' ' || c == '\t' || c == '\n' || c == '\r' || c == '\x0b' || c == '\x0c'

def alphaA (c : Char) : Bool :=
  c.isUpper || c.isLower

/-- `[A-Z0-9._%+-]` under `re.I`: the local-part class of `EMAIL_RE`,
`MAILTO_RE` and `OBFUSCATED_RE`. -/
def localChar (c : Char) : Bool :=
  alphaA c || c.isDigit || c == '.' || c == '_' || c == '%' || c == '+' || c == '-'

/-- `[A-Z0-9.-]` under `re.I`: the host class of the three patterns. -/
def hostChar (c : Char) : Bool :=
  alphaA c || c.isDigit || c == '.' || c == '-'

def quoteChar (c : Char) : Bool := c == '"' || c.toNat == 39

/-- `(?:\(|\[|\{|\s)` before the at-token of `OBFUSCATED_RE`. -/
def openerChar (c : Char) : Bool := c == '(' || c == '[' || c == '{' || wsChar c

/-- `(?:\)|\]|\}|\s)` after the at-token of `OBFUSCATED_RE`. -/
def closerChar (c : Char) : Bool := c == ')' || c == ']' || c == '}' || wsChar c

/-! ### A small backtracking regex engine

A `Parser` maps an input to the list of `(consumed, rest)` splits it can
produce, ordered the way a backtracking engine explores them: greedy
quantifiers longest first, alternation in written order.  The first overall
success of a composed matcher is therefore the match Python's `re` finds. -/

def Parser : Type := List Char → List (List Char × List Char)

/-- Match one character satisfying `p`. -/
def pPred (p : Char → Bool) : Parser := fun s =>
  match s with
  | [] => []
  | c :: rest => if p c then [([c], rest)] else []

/-- Case-insensitive literal (`re.I`); the consumed text keeps its case. -/
def pLit (lit : List Char) : Parser := fun s =>
  if (s.take lit.length).map Char.toLower == lit.map Char.toLower then
    [(s.take lit.length, s.drop lit.length)]
  else []

/-- Sequencing; the left parser's preferences dominate (backtracking order). -/
def pThen (p q : Parser) : Parser := fun s =>
  (p s).flatMap fun pr => (q pr.2).map fun qr => (pr.1 ++ qr.1, qr.2)

/-- Alternation in written order. -/
def pAlt (ps : List Parser) : Parser := fun s => ps.flatMap (· s)

/-- Greedy `?`: prefer consuming. -/
def pOpt (p : Parser) : Parser := fun s => p s ++ [([], s)]

/-- Greedy `*` over a character class: longest first. -/
def pManyPred (p : Char → Bool) : Parser := fun s =>
  match s with
  | [] => [([], [])]
  | c :: rest =>
    (if p c then (pManyPred p rest).map (fun pr => (c :: pr.1, pr.2)) else [])
      ++ [([], c :: rest)]

/-- Greedy `+` over a character class. -/
def pMany1 (p : Char → Bool) : Parser := pThen (pPred p) (pManyPred p)

/-- Feed a parser's alternatives to a continuation and keep the first
success: exactly the backtracking search order. -/
def pfirst {β : Type} (rs : List (List Char × List Char))
    (k : List Char → List Char → Option β) : Option β :=
  rs.findSome? fun pr => k pr.1 pr.2

/-! ### The three regular expressions of `vc_email_scraper.py` -/

/-- `[A-Z0-9.-]+\.[A-Z]{2,}` — the host part shared by
`MAILTO_RE` and `EMAIL_RE`. -/
def emailTail : Parser :=
  pThen (pMany1 hostChar)
    (pThen (pLit ['.']) (pThen (pPred alphaA) (pMany1 alphaA)))

/-- `EMAIL_RE` tried at the start of `s`; returns the whole match and the
rest of the input. -/
def emailAt (s : List Char) : Option (List Char × List Char) :=
  pfirst (pMany1 localChar s) fun l r1 =>
    pfirst (pLit ['@'] r1) fun _ r2 =>
      pfirst (emailTail r2) fun t r3 => some (l ++ '@' :: t, r3)

/-- `href=["\']mailto:` — the uncaptured part of `MAILTO_RE`. -/
def mailtoPre : Parser :=
  pThen (pLit "href=".data) (pThen (pPred quoteChar) (pLit "mailto:".data))

/-- `MAILTO_RE` tried at the start of `s`; returns capture group 1. -/
def mailtoAt (s : List Char) : Option (List Char × List Char) :=
  pfirst (mailtoPre s) fun _ r0 =>
    pfirst (pMany1 localChar r0) fun l r1 =>
      pfirst (pLit ['@'] r1) fun _ r2 =>
        pfirst (emailTail r2) fun t r3 => some (l ++ '@' :: t, r3)

/-- `(?:@|&\#64;|&commat;|\s+at\s+|\s*\[at\]\s*)` of `OBFUSCATED_RE`. -/
def atTokP : Parser :=
  pAlt [pLit ['@'], pLit "&#64;".data, pLit "&commat;".data,
    pThen (pMany1 wsChar) (pThen (pLit "at".data) (pMany1 wsChar)),
    pThen (pManyPred wsChar) (pThen (pLit "[at]".data) (pManyPred wsChar))]

/-- `\s*(?:\(|\[|\{|\s)?\s* at-token \s*(?:\)|\]|\}|\s)?\s*`. -/
def obfusMid : Parser :=
  pThen (pManyPred wsChar)
    (pThen (pOpt (pPred openerChar))
      (pThen (pManyPred wsChar)
        (pThen atTokP
          (pThen (pManyPred wsChar)
            (pThen (pOpt (pPred closerChar)) (pManyPred wsChar))))))

/-- `(?:\.|dot|\[dot\]|\s+dot\s+)` of the host group. -/
def dotTokP : Parser :=
  pAlt [pLit ['.'], pLit "dot".data, pLit "[dot]".data,
    pThen (pMany1 wsChar) (pThen (pLit "dot".data) (pMany1 wsChar))]

/-- Host group of `OBFUSCATED_RE`:
`[A-Z0-9.-]+ \s*(?:\.|dot|\[dot\]|\s+dot\s+)\s* [A-Z]{2,}`. -/
def hostObP : Parser :=
  pThen (pMany1 hostChar)
    (pThen (pManyPred wsChar)
      (pThen dotTokP
        (pThen (pManyPred wsChar) (pThen (pPred alphaA) (pMany1 alphaA)))))

/-- `OBFUSCATED_RE` tried at the start of `s`; returns the two captures
`(local, host)`. -/
def obfusAt (s : List Char) : Option ((List Char × List Char) × List Char) :=
  pfirst (pMany1 localChar s) fun l r1 =>
    pfirst (obfusMid r1) fun _ r2 =>
      pfirst (hostObP r2) fun h r3 => some ((l, h), r3)

/-- The pattern `\s*(?:dot|\[dot\]|\s+dot\s+)\s*` used by `re.sub`
inside `_norm_obfus`. -/
def dotSubAt (s : List Char) : Option (Unit × List Char) :=
  pfirst
    (pThen (pManyPred wsChar)
      (pThen (pAlt [pLit "dot".data, pLit "[dot]".data,
        pThen (pMany1 wsChar) (pThen (pLit "dot".data) (pMany1 wsChar))])
        (pManyPred wsChar)) s)
    fun _ r => some ((), r)

/-! ### Scanning: `findall` / `finditer` / `sub` -/

/-- Scan for successive non-overlapping leftmost matches, as
`re.findall` / `re.finditer` do.  All embedded matchers consume at least
one character, so `fuel := length + 1` never truncates. -/
def scanA {β : Type} (matchAt : List Char → Option (β × List Char)) :
    Nat → List Char → List β
  | 0, _ => []
  | _, [] => []
  | fuel + 1, c :: rest =>
    match matchAt (c :: rest) with
    | some (b, r) => b :: scanA matchAt fuel r
    | none => scanA matchAt fuel rest

/-- `re.sub(pattern, ".", host)` for the `_norm_obfus` dot pattern. -/
def subAll : Nat → List Char → List Char
  | 0, s => s
  | _, [] => []
  | fuel + 1, c :: rest =>
    match dotSubAt (c :: rest) with
    | some (_, r) => '.' :: subAll fuel r
    | none => c :: subAll fuel rest

/-- `MAILTO_RE.findall(html)`. -/
def MAILTO_findall (html : String) : List String :=
  (scanA mailtoAt (html.data.length + 1) html.data).map fun l => ⟨l⟩

/-- `EMAIL_RE.findall(html)`. -/
def EMAIL_findall (html : String) : List String :=
  (scanA emailAt (html.data.length + 1) html.data).map fun l => ⟨l⟩

/-- `_norm_obfus(m)`: `f"{local}@{re.sub(dotpat, '.', host)}"`. -/
def norm_obfus (lh : List Char × List Char) : String :=
  ⟨lh.1 ++ '@' :: subAll (lh.2.length + 1) lh.2⟩

/-- `{_norm_obfus(m) for m in OBFUSCATED_RE.finditer(html)}` as a list. -/
def OBFUS_normed (html : String) : List String :=
  (scanA obfusAt (html.data.length + 1) html.data).map norm_obfus

/-! ### Python string helpers used by `extract_emails` -/

/-- `str.lower()` (ASCII range, which is all the patterns produce). -/
def sLower (s : String) : String := ⟨s.data.map Char.toLower⟩

/-- `str.endswith(suffix)`. -/
def sEndsWith (s suf : String) : Bool := decide (suf.data <:+ s.data)

/-- `e.split("@", 1)[0]`. -/
def localPart (e : String) : String := ⟨e.data.takeWhile (fun c => c != '@')⟩

/-- `e.split("@", 1)[1]` (the part after the first `@`; `""` if absent). -/
def hostPart (e : String) : String := ⟨(e.data.dropWhile (fun c => c != '@')).tail⟩

/-- Python-set construction from a list: keep first occurrences. -/
def dedupAux : List String → List String → List String
  | _, [] => []
  | acc, x :: xs => if x ∈ acc then dedupAux acc xs else x :: dedupAux (x :: acc) xs

def dedupF (l : List String) : List String := dedupAux [] l

/-! ### `extract_emails` -/

/-- `COMMON_ALIASES` from `vc_email_scraper.py`. -/
def COMMON_ALIASES : List String :=
  ["info", "contact", "hello", "hi", "team", "office", "admin", "support",
   "help", "inquiries", "enquiries", "mail", "mailbox", "mailroom",
   "ceo", "founder", "founders", "partners", "partner", "managingpartner",
   "invest", "investor", "investors", "venture", "capital", "fund", "funds",
   "fundraising", "lp", "dealflow", "sales", "bizdev", "business",
   "partnerships", "partnership", "outreach", "marketing", "press", "media",
   "pr", "comms", "careers", "jobs", "hr", "talent", "people", "recruiting",
   "ops", "operations", "services", "service", "webmaster", "postmaster"]

/-- The filter of step 2 of `extract_emails`:
`e.split("@", 1)[0].lower() in COMMON_ALIASES and e.lower().endswith(host)`. -/
def aliasHostOK (host e : String) : Bool :=
  COMMON_ALIASES.contains (sLower (localPart e)) && sEndsWith (sLower e) host

/-- `extract_emails(html, host)`: the 3-step rule.  Python sets are
duplicate-free lists here. -/
def extract_emails (html host : String) : List String :=
  let mailtos := dedupF (MAILTO_findall html)
  if mailtos.isEmpty then
    (dedupF (EMAIL_findall html ++ OBFUS_normed html)).filter (aliasHostOK host)
  else mailtos


/-! ### Config constants of `vc_email_scraper.py` -/

def MAX_DEPTH : Nat := 3
def MAX_PAGES_PER_SITE : Nat := 50
def SITE_TIMEOUT : Nat := 240

/-! ### `domain` (via `urllib.parse.urlparse(u).netloc`) -/

def schemeChar (c : Char) : Bool := alphaA c || c.isDigit || c == '+' || c == '-' || c == '.'

/-- `urlparse` strips a leading `scheme:` when the text before the first `:`
is a nonempty valid scheme (letter first). -/
def dropSchemeL (l : List Char) : List Char :=
  let pre := l.takeWhile (fun c => c != ':')
  match pre with
  | [] => l
  | c :: rest =>
    if alphaA c && rest.all schemeChar && decide (pre.length < l.length) then
      (l.dropWhile (fun c => c != ':')).tail
    else l

/-- `urlparse(u).netloc`: present only after `//`, ends before `/`, `?`, `#`. -/
def netlocL (l : List Char) : List Char :=
  match dropSchemeL l with
  | '/' :: '/' :: rest => rest.takeWhile (fun c => !(c == '/' || c == '?' || c == '#'))
  | _ => []

/-- `domain(u) = urlparse(u).netloc.lower().removeprefix("www.")`. -/
def dmn (u : String) : String :=
  let n := (netlocL u.data).map Char.toLower
  ⟨if n.take 4 = "www.".data then n.drop 4 else n⟩

/-- `str.startswith` (used as `nxt.startswith("http")`). -/
def startsWithL (s p : String) : Bool := s.data.take p.data.length == p.data

/-! ### `fetch` and the crawl state -/

/-- `fetch`: returns the body, or `""` when `sess.get` raises (the
`except Exception` branch).  The network is the function `web`. -/
def fetch (web : String → Option String) (url : String) : String :=
  (web url).getD ""

/-- Python set insertion (`set.add` keeping insertion order irrelevant;
first occurrence kept). -/
def sinsert (l : List String) (x : String) : List String :=
  if x ∈ l then l else l ++ [x]

/-- `emails |= new` on the list representation of sets. -/
def sunion (l : List String) (xs : List String) : List String :=
  xs.foldl sinsert l

/-- The mutable state of `crawl_site`'s loop:
`seen, q, emails, pages = {root}, [(root, 0)], set(), 0`. -/
structure CrawlState where
  seen : List String
  q : List (String × Nat)
  emails : List String
  pages : Nat
deriving DecidableEq, Repr

def initState (root : String) : CrawlState :=
  ⟨[root], [(root, 0)], [], 0⟩

/-- The inner `for a in BeautifulSoup(...)` loop of `crawl_site`: each
candidate `nxt` is enqueued iff
`nxt.startswith("http") and domain(nxt) == host and nxt not in seen`,
in which case `seen.add(nxt)` and `q.append((nxt, depth + 1))`. -/
def offerLinks (host : String) (depth : Nat) :
    List String → List String → List (String × Nat) → List String × List (String × Nat)
  | [], seen, q => (seen, q)
  | nxt :: rest, seen, q =>
    if startsWithL nxt "http" && (dmn nxt == host) && !(decide (nxt ∈ seen)) then
      offerLinks host depth rest (seen ++ [nxt]) (q ++ [(nxt, depth + 1)])
    else offerLinks host depth rest seen q

/-- One `while q and pages < MAX_PAGES_PER_SITE` loop of `crawl_site`,
with explicit fuel.  Each iteration pops the queue head, fetches, extracts,
and (when `depth < maxDepth`) offers the discovered links.  The loop body
runs at most `maxPages` times, so any `fuel ≥ maxPages` computes the
loop's actual result (proved below). -/
def crawlLoop (web : String → Option String) (links : String → String → List String)
    (maxPages maxDepth : Nat) (host : String) : Nat → CrawlState → CrawlState
  | 0, st => st
  | fuel + 1, st =>
    match st.q with
    | [] => st
    | (url, depth) :: qrest =>
      if st.pages < maxPages then
        let html := fetch web url
        let emails := sunion st.emails (extract_emails html host)
        let sq :=
          if depth < maxDepth then offerLinks host depth (links url html) st.seen qrest
          else (st.seen, qrest)
        crawlLoop web links maxPages maxDepth host fuel ⟨sq.1, sq.2, emails, st.pages + 1⟩
      else st

/-- `crawl_site(sess, root)`: returns the accumulated email set. -/
def crawl_site (web : String → Option String) (links : String → String → List String)
    (root : String) : List String :=
  (crawlLoop web links MAX_PAGES_PER_SITE MAX_DEPTH (dmn root)
    MAX_PAGES_PER_SITE (initState root)).emails

/-! ### The scheduler wrapper `hunt_emails` -/

/-- `rows.extend([(url, e) for e in ems or [""]])`. -/
def oneRows (ems : List String) (url : String) : List (String × String) :=
  match ems with
  | [] => [(url, "")]
  | e :: es => (e :: es).map fun x => (url, x)

/-- `_one(url)`: on `asyncio.TimeoutError` / `CancelledError` the except
branch sets `ems = set()`; otherwise `ems = crawl_site(sess, url)`. -/
def huntOne (web : String → Option String) (links : String → String → List String)
    (timedOut : Bool) (url : String) : List (String × String) :=
  oneRows (if timedOut then [] else crawl_site web links url) url

/-- `hunt_emails(sites)`: every site contributes its own `_one` rows;
`timedOut` records which sites hit the `SITE_TIMEOUT` cancellation. -/
def hunt_emails (web : String → Option String) (links : String → String → List String)
    (timedOut : String → Bool) (sites : List String) : List (String × String) :=
  sites.flatMap fun s => huntOne web links (timedOut s) s

/-- `pandas.DataFrame(rows).drop_duplicates()` keeps the first occurrence
of each `(website, email)` pair. -/
def dropDupAux : List (String × String) → List (String × String) → List (String × String)
  | _, [] => []
  | acc, x :: xs => if x ∈ acc then dropDupAux acc xs else x :: dropDupAux (x :: acc) xs

def dropDuplicates (l : List (String × String)) : List (String × String) :=
  dropDupAux [] l

/-! ### TLS configuration of the Fetcher (lines 97–103 and 178) -/

/-- The `ssl=` argument of `sess.get(url, ssl=False)` in `fetch`.  In
aiohttp, `ssl=False` disables certificate verification. -/
def fetch_ssl_arg : Bool := false

/-- The `ssl=` argument of `aiohttp.TCPConnector(limit=CONCURRENCY, ssl=False)`
in `hunt_emails`. -/
def connector_ssl_arg : Bool := false

/-- Whether a fetch verifies TLS certificates: it does iff neither the
request nor the connector sets `ssl=False`. -/
def fetch_verifies_tls : Bool := fetch_ssl_arg && connector_ssl_arg



/-! ### Concrete fixtures used by counterexamples and witnesses -/

/-- A one-page site whose page holds a lower-case mailto link. -/
def webA : String → Option String := fun u =>
  if u = "https://a.test" then some "<a href=\"mailto:info@a.test\">" else none

/-- A one-page site whose page holds an upper-case mailto link. -/
def webB : String → Option String := fun u =>
  if u = "https://a.test" then some "<a href=\"mailto:INFO@A.TEST\">" else none

/-- A one-page site with no addresses at all. -/
def webC : String → Option String := fun u =>
  if u = "https://a.test" then some "hello" else none

/-- Link discovery finding nothing. -/
def linksNone : String → String → List String := fun _ _ => []

/-- Link discovery producing in-domain, non-HTTP, off-domain, duplicate and
already-seen candidates on the seed page. -/
def linksC : String → String → List String := fun u _ =>
  if u = "https://a.test" then
    ["https://a.test/x", "mailto:foo@a.test", "https://other.test/y",
     "https://a.test/x", "https://a.test"]
  else []

/-! ### Generic list lemmas -/

theorem findSome_ex {α β : Type} {l : List α} {f : α → Option β} {b : β}
    (h : l.findSome? f = some b) : ∃ a, a ∈ l ∧ f a = some b := by
  induction l with
  | nil => simp [List.findSome?] at h
  | cons a as ih =>
    rw [List.findSome?_cons] at h
    cases hfa : f a with
    | some b' =>
      rw [hfa] at h
      have h' : some b' = some b := h
      exact ⟨a, List.mem_cons_self a as, by rw [hfa, Option.some.inj h']⟩
    | none =>
      rw [hfa] at h
      have h' : List.findSome? f as = some b := h
      obtain ⟨x, hx, hfx⟩ := ih h'
      exact ⟨x, List.mem_cons_of_mem a hx, hfx⟩

theorem mem_dedupAux {x : String} :
    ∀ (l acc : List String), x ∈ dedupAux acc l ↔ x ∈ l ∧ x ∉ acc := by
  intro l
  induction l with
  | nil => intro acc; simp [dedupAux]
  | cons y ys ih =>
    intro acc
    by_cases hy : y ∈ acc
    · rw [dedupAux, if_pos hy, ih]
      constructor
      · rintro ⟨h1, h2⟩
        exact ⟨List.mem_cons_of_mem y h1, h2⟩
      · rintro ⟨h1, h2⟩
        rcases List.mem_cons.mp h1 with rfl | h1
        · exact absurd hy h2
        · exact ⟨h1, h2⟩
    · rw [dedupAux, if_neg hy]
      simp only [List.mem_cons]
      constructor
      · rintro (rfl | h)
        · exact ⟨Or.inl rfl, hy⟩
        · obtain ⟨h1, h2⟩ := (ih (y :: acc)).mp h
          exact ⟨Or.inr h1, fun hc => h2 (List.mem_cons_of_mem y hc)⟩
      · rintro ⟨h1, h2⟩
        rcases h1 with rfl | h1
        · exact Or.inl rfl
        · by_cases hxy : x = y
          · exact Or.inl hxy
          · refine Or.inr ((ih (y :: acc)).mpr ⟨h1, fun hc => ?_⟩)
            rcases List.mem_cons.mp hc with h3 | h3
            · exact hxy h3
            · exact h2 h3

theorem mem_dedupF {x : String} {l : List String} : x ∈ dedupF l ↔ x ∈ l := by
  rw [dedupF, mem_dedupAux]
  simp

theorem dedupF_eq_nil {l : List String} : dedupF l = [] ↔ l = [] := by
  cases l with
  | nil => simp [dedupF, dedupAux]
  | cons x xs =>
    rw [dedupF, dedupAux, if_neg (List.not_mem_nil x)]
    simp

theorem mem_dropDupAux {x : String × String} :
    ∀ (l acc : List (String × String)), x ∈ dropDupAux acc l ↔ x ∈ l ∧ x ∉ acc := by
  intro l
  induction l with
  | nil => intro acc; simp [dropDupAux]
  | cons y ys ih =>
    intro acc
    by_cases hy : y ∈ acc
    · rw [dropDupAux, if_pos hy, ih]
      constructor
      · rintro ⟨h1, h2⟩
        exact ⟨List.mem_cons_of_mem y h1, h2⟩
      · rintro ⟨h1, h2⟩
        rcases List.mem_cons.mp h1 with rfl | h1
        · exact absurd hy h2
        · exact ⟨h1, h2⟩
    · rw [dropDupAux, if_neg hy]
      simp only [List.mem_cons]
      constructor
      · rintro (rfl | h)
        · exact ⟨Or.inl rfl, hy⟩
        · obtain ⟨h1, h2⟩ := (ih (y :: acc)).mp h
          exact ⟨Or.inr h1, fun hc => h2 (List.mem_cons_of_mem y hc)⟩
      · rintro ⟨h1, h2⟩
        rcases h1 with rfl | h1
        · exact Or.inl rfl
        · by_cases hxy : x = y
          · exact Or.inl hxy
          · refine Or.inr ((ih (y :: acc)).mpr ⟨h1, fun hc => ?_⟩)
            rcases List.mem_cons.mp hc with h3 | h3
            · exact hxy h3
            · exact h2 h3

theorem mem_dropDuplicates {x : String × String} {l : List (String × String)} :
    x ∈ dropDuplicates l ↔ x ∈ l := by
  rw [dropDuplicates, mem_dropDupAux]
  simp

theorem suffix_eq_drop {α : Type} {A l : List α} (h : A <:+ l) :
    A = l.drop (l.length - A.length) := by
  obtain ⟨t, rfl⟩ := h
  rw [List.length_append]
  rw [show t.length + A.length - A.length = t.length by omega]
  rw [List.drop_left]

theorem suffix_of_suffix_le {α : Type} {A B l : List α}
    (hA : A <:+ l) (hB : B <:+ l) (hle : A.length ≤ B.length) : A <:+ B := by
  have eA := suffix_eq_drop hA
  have eB := suffix_eq_drop hB
  generalize hn : l.length - A.length = n at eA
  generalize hm : l.length - B.length = m at eB
  have key : B.drop (n - m) = A := by
    rw [eB, List.drop_drop, show m + (n - m) = n from by omega, ← eA]
  rw [← key]
  exact List.drop_suffix _ _

/-! ### Shape lemmas about the embedded matchers -/

theorem scanA_mem {β : Type} (mA : List Char → Option (β × List Char)) :
    ∀ (fuel : Nat) (s : List Char) (b : β), b ∈ scanA mA fuel s →
      ∃ inp out, mA inp = some (b, out) := by
  intro fuel
  induction fuel with
  | zero => intro s b h; simp [scanA] at h
  | succ fuel ih =>
    intro s b h
    cases s with
    | nil => simp [scanA] at h
    | cons c rest =>
      rw [scanA] at h
      cases hm : mA (c :: rest) with
      | some pr =>
        rw [hm] at h
        rcases List.mem_cons.mp h with rfl | h
        · exact ⟨c :: rest, pr.2, by rw [hm]⟩
        · exact ih pr.2 b h
      | none =>
        rw [hm] at h
        exact ih rest b h

theorem emailAt_shape {s : List Char} {cap r : List Char}
    (h : emailAt s = some (cap, r)) : '@' ∈ cap := by
  unfold emailAt pfirst at h
  obtain ⟨a1, _, h1⟩ := findSome_ex h
  obtain ⟨a2, _, h2⟩ := findSome_ex h1
  obtain ⟨a3, _, h3⟩ := findSome_ex h2
  have : a1.1 ++ '@' :: a3.1 = cap := congrArg Prod.fst (Option.some.inj h3)
  rw [← this]
  exact List.mem_append_right _ (List.mem_cons_self _ _)

/-- Every address produced by step 2 of `extract_emails` contains an `@`. -/
theorem raw_has_at {html : String} {e : String}
    (he : e ∈ EMAIL_findall html ++ OBFUS_normed html) : '@' ∈ e.data := by
  rcases List.mem_append.mp he with h | h
  · obtain ⟨l, hl, rfl⟩ := List.mem_map.mp h
    obtain ⟨inp, out, hm⟩ := scanA_mem emailAt _ _ _ hl
    exact emailAt_shape hm
  · obtain ⟨lh, _, rfl⟩ := List.mem_map.mp h
    exact List.mem_append_right _ (List.mem_cons_self _ _)

/-! ### Splitting an address at its first `@` -/

theorem dropWhile_at {l : List Char} (h : '@' ∈ l) :
    l.dropWhile (fun c => c != '@') = '@' :: (l.dropWhile (fun c => c != '@')).tail := by
  induction l with
  | nil => cases h
  | cons c rest ih =>
    by_cases hc : c = '@'
    · subst hc
      rw [List.dropWhile_cons]
      simp
    · have hcb : (c != '@') = true := by simp [hc]
      rw [List.dropWhile_cons, if_pos hcb]
      rcases List.mem_cons.mp h with h' | h'
      · exact absurd h'.symm hc
      · exact ih h'

/-- `e = localPart e ++ "@" ++ hostPart e` whenever `e` contains an `@`. -/
theorem split_at_first_at {e : String} (h : '@' ∈ e.data) :
    e.data = (localPart e).data ++ '@' :: (hostPart e).data := by
  conv_lhs => rw [← List.takeWhile_append_dropWhile (p := fun c => c != '@') (l := e.data)]
  rw [dropWhile_at h]
  rfl

theorem toLower_at : Char.toLower '@' = '@' := by decide

/-! ### Termination and page-budget lemmas for the crawl loop -/

theorem crawlLoop_saturated (web : String → Option String)
    (links : String → String → List String) (maxPages maxDepth : Nat) (host : String) :
    ∀ (st : CrawlState), maxPages ≤ st.pages →
    ∀ fuel, crawlLoop web links maxPages maxDepth host fuel st = st := by
  rintro ⟨seen, q, emails, pages⟩ h fuel
  cases fuel with
  | zero => rfl
  | succ fuel =>
    cases q with
    | nil => simp only [crawlLoop]
    | cons t qrest =>
      obtain ⟨url, depth⟩ := t
      simp only [crawlLoop]
      rw [if_neg (by simp at h ⊢; omega)]

theorem crawlLoop_pages_le (web : String → Option String)
    (links : String → String → List String) (maxPages maxDepth : Nat) (host : String) :
    ∀ (fuel : Nat) (st : CrawlState),
      (crawlLoop web links maxPages maxDepth host fuel st).pages ≤ max st.pages maxPages := by
  intro fuel
  induction fuel with
  | zero => intro st; exact le_max_left _ _
  | succ fuel ih =>
    rintro ⟨seen, q, emails, pages⟩
    cases q with
    | nil => exact le_max_left _ _
    | cons t qrest =>
      obtain ⟨url, depth⟩ := t
      simp only [crawlLoop]
      by_cases hp : pages < maxPages
      · rw [if_pos (by simpa using hp)]
        refine le_trans (ih _) ?_
        rw [Nat.max_le]
        refine ⟨le_trans ?_ (Nat.le_max_right _ _), Nat.le_max_right _ _⟩
        show pages + 1 ≤ maxPages
        omega
      · rw [if_neg (by simpa using hp)]
        exact le_max_left _ _

theorem crawlLoop_stop (web : String → Option String)
    (links : String → String → List String) (maxPages maxDepth : Nat) (host : String) :
    ∀ (fuel : Nat) (st : CrawlState), maxPages ≤ st.pages + fuel →
      (crawlLoop web links maxPages maxDepth host fuel st).q = [] ∨
        maxPages ≤ (crawlLoop web links maxPages maxDepth host fuel st).pages := by
  intro fuel
  induction fuel with
  | zero => intro st h; right; simpa using h
  | succ fuel ih =>
    rintro ⟨seen, q, emails, pages⟩ h
    cases q with
    | nil => left; simp only [crawlLoop]
    | cons t qrest =>
      obtain ⟨url, depth⟩ := t
      simp only [crawlLoop]
      by_cases hp : pages < maxPages
      · rw [if_pos (by simpa using hp)]
        refine ih _ ?_
        show maxPages ≤ pages + 1 + fuel
        simp at h
        omega
      · rw [if_neg (by simpa using hp)]
        right
        simp at h ⊢
        omega

theorem crawlLoop_stable (web : String → Option String)
    (links : String → String → List String) (maxPages maxDepth : Nat) (host : String) :
    ∀ (fuel : Nat) (st : CrawlState), maxPages ≤ st.pages + fuel → ∀ extra,
      crawlLoop web links maxPages maxDepth host (fuel + extra) st =
        crawlLoop web links maxPages maxDepth host fuel st := by
  intro fuel
  induction fuel with
  | zero =>
    intro st h extra
    rw [Nat.zero_add]
    exact crawlLoop_saturated web links maxPages maxDepth host st (by simpa using h) extra
  | succ fuel ih =>
    rintro ⟨seen, q, emails, pages⟩ h extra
    rw [show fuel + 1 + extra = (fuel + extra) + 1 from by omega]
    cases q with
    | nil => simp only [crawlLoop]
    | cons t qrest =>
      obtain ⟨url, depth⟩ := t
      simp only [crawlLoop]
      by_cases hp : pages < maxPages
      · rw [if_pos hp, if_pos hp]
        refine ih _ ?_ extra
        show maxPages ≤ pages + 1 + fuel
        simp at h
        omega
      · rw [if_neg hp, if_neg hp]

/-! ### Frontier invariants -/

/-- The guard of the enqueue filter in `crawl_site`:
`nxt.startswith("http") and domain(nxt) == host and nxt not in seen`. -/
theorem offerLinks_fresh (host : String) (depth : Nat) :
    ∀ (cand seen : List String) (q : List (String × Nat)) (t : String × Nat),
      t ∈ (offerLinks host depth cand seen q).2 →
      t ∈ q ∨ (t.2 = depth + 1 ∧ dmn t.1 = host ∧ t.1 ∉ seen ∧
        startsWithL t.1 "http" = true) := by
  intro cand
  induction cand with
  | nil => intro seen q t ht; exact Or.inl ht
  | cons nxt rest ih =>
    intro seen q t ht
    rw [offerLinks] at ht
    by_cases hg : (startsWithL nxt "http" && (dmn nxt == host) && !(decide (nxt ∈ seen))) = true
    · rw [if_pos hg] at ht
      have hg' := hg
      simp only [Bool.and_eq_true, beq_iff_eq, Bool.not_eq_eq_eq_not, Bool.not_true,
        decide_eq_false_iff_not] at hg'
      rcases ih _ _ t ht with h | ⟨h1, h2, h3, h4⟩
      · rcases List.mem_append.mp h with h' | h'
        · exact Or.inl h'
        · rcases List.mem_singleton.mp h' with rfl
          exact Or.inr ⟨rfl, hg'.1.2, hg'.2, hg'.1.1⟩
      · refine Or.inr ⟨h1, h2, fun hc => h3 (List.mem_append_left _ hc), h4⟩
    · rw [if_neg hg] at ht
      exact ih _ _ t ht

theorem offerLinks_seen_mono (host : String) (depth : Nat) :
    ∀ (cand seen : List String) (q : List (String × Nat)) (u : String),
      u ∈ seen → u ∈ (offerLinks host depth cand seen q).1 := by
  intro cand
  induction cand with
  | nil => intro seen q u hu; exact hu
  | cons nxt rest ih =>
    intro seen q u hu
    rw [offerLinks]
    by_cases hg : (startsWithL nxt "http" && (dmn nxt == host) && !(decide (nxt ∈ seen))) = true
    · rw [if_pos hg]
      exact ih _ _ u (List.mem_append_left _ hu)
    · rw [if_neg hg]
      exact ih _ _ u hu

theorem offerLinks_closed (host : String) (depth : Nat) :
    ∀ (cand seen : List String) (q : List (String × Nat)),
      (∀ t ∈ q, t.1 ∈ seen) →
      ∀ t ∈ (offerLinks host depth cand seen q).2,
        t.1 ∈ (offerLinks host depth cand seen q).1 := by
  intro cand
  induction cand with
  | nil => intro seen q hsub t ht; exact hsub t ht
  | cons nxt rest ih =>
    intro seen q hsub t ht
    rw [offerLinks] at ht ⊢
    by_cases hg : (startsWithL nxt "http" && (dmn nxt == host) && !(decide (nxt ∈ seen))) = true
    · rw [if_pos hg] at ht ⊢
      refine ih _ _ ?_ t ht
      intro t' ht'
      rcases List.mem_append.mp ht' with h' | h'
      · exact List.mem_append_left _ (hsub t' h')
      · rcases List.mem_singleton.mp h' with rfl
        exact List.mem_append_right _ (List.mem_singleton.mpr rfl)
    · rw [if_neg hg] at ht ⊢
      exact ih _ _ hsub t ht

theorem offerLinks_nodup (host : String) (depth : Nat) :
    ∀ (cand seen : List String) (q : List (String × Nat)),
      (∀ t ∈ q, t.1 ∈ seen) → (q.map Prod.fst).Nodup →
      ((offerLinks host depth cand seen q).2.map Prod.fst).Nodup := by
  intro cand
  induction cand with
  | nil => intro seen q _ hnd; exact hnd
  | cons nxt rest ih =>
    intro seen q hsub hnd
    rw [offerLinks]
    by_cases hg : (startsWithL nxt "http" && (dmn nxt == host) && !(decide (nxt ∈ seen))) = true
    · rw [if_pos hg]
      have hg' := hg
      simp only [Bool.and_eq_true, beq_iff_eq, Bool.not_eq_eq_eq_not, Bool.not_true,
        decide_eq_false_iff_not] at hg'
      refine ih _ _ ?_ ?_
      · intro t' ht'
        rcases List.mem_append.mp ht' with h' | h'
        · exact List.mem_append_left _ (hsub t' h')
        · rcases List.mem_singleton.mp h' with rfl
          exact List.mem_append_right _ (List.mem_singleton.mpr rfl)
      · rw [List.map_append]
        rw [List.nodup_append]
        refine ⟨hnd, List.nodup_singleton _, ?_⟩
        intro u hu hu'
        rcases List.mem_singleton.mp hu' with rfl
        obtain ⟨t', ht', rfl⟩ := List.mem_map.mp hu
        exact hg'.2 (hsub t' ht')
    · rw [if_neg hg]
      exact ih _ _ hsub hnd

/-- Invariant of the per-site Frontier: every queued task respects the
depth bound, was inserted into the visited set when enqueued, and stays on
the site's domain; queued URLs are pairwise distinct. -/
def frontierInv (host : String) (maxDepth : Nat) (st : CrawlState) : Prop :=
  (∀ t ∈ st.q, t.2 ≤ maxDepth ∧ t.1 ∈ st.seen ∧ dmn t.1 = host) ∧
  (st.q.map Prod.fst).Nodup

theorem crawlLoop_inv (web : String → Option String)
    (links : String → String → List String) (maxPages maxDepth : Nat) (host : String) :
    ∀ (fuel : Nat) (st : CrawlState), frontierInv host maxDepth st →
      frontierInv host maxDepth (crawlLoop web links maxPages maxDepth host fuel st) := by
  intro fuel
  induction fuel with
  | zero => intro st h; exact h
  | succ fuel ih =>
    rintro ⟨seen, q, emails, pages⟩ ⟨hq, hnd⟩
    cases q with
    | nil => exact ⟨hq, hnd⟩
    | cons t qrest =>
      obtain ⟨url, depth⟩ := t
      simp only [crawlLoop]
      by_cases hp : pages < maxPages
      · rw [if_pos hp]
        have hqrest : ∀ t ∈ qrest, t.2 ≤ maxDepth ∧ t.1 ∈ seen ∧ dmn t.1 = host :=
          fun t ht => hq t (List.mem_cons_of_mem _ ht)
        have hndrest : (qrest.map Prod.fst).Nodup := by
          rw [List.map_cons] at hnd
          exact hnd.of_cons
        have hsub : ∀ t ∈ qrest, t.1 ∈ seen := fun t ht => (hqrest t ht).2.1
        by_cases hd : depth < maxDepth
        · rw [if_pos hd]
          refine ih _ ⟨?_, ?_⟩
          · intro t ht
            rcases offerLinks_fresh host depth _ _ _ t ht with h | ⟨h1, h2, _, _⟩
            · obtain ⟨hdep, hseen, hdom⟩ := hqrest t h
              exact ⟨hdep, offerLinks_seen_mono host depth _ _ _ _ hseen, hdom⟩
            · refine ⟨by omega, ?_, h2⟩
              exact offerLinks_closed host depth _ _ _ hsub t ht
          · exact offerLinks_nodup host depth _ _ _ hsub hndrest
        · rw [if_neg hd]
          exact ih _ ⟨fun t ht => hqrest t ht, hndrest⟩
      · rw [if_neg hp]
        exact ⟨hq, hnd⟩

/-! ### Helper lemmas about `_one` and `hunt_emails` -/

theorem oneRows_ne_nil (ems : List String) (url : String) : oneRows ems url ≠ [] := by
  cases ems <;> simp [oneRows]

theorem oneRows_fst (ems : List String) (url : String) :
    ∀ r ∈ oneRows ems url, r.1 = url := by
  intro r hr
  cases ems with
  | nil =>
    rw [oneRows] at hr
    rcases List.mem_singleton.mp hr with rfl
    rfl
  | cons e es =>
    rw [oneRows] at hr
    obtain ⟨x, _, rfl⟩ := List.mem_map.mp hr
    rfl

theorem huntOne_fst (web : String → Option String) (links : String → String → List String)
    (b : Bool) (url : String) : ∀ r ∈ huntOne web links b url, r.1 = url := by
  intro r hr
  exact oneRows_fst _ url r hr

theorem huntOne_ne_nil (web : String → Option String) (links : String → String → List String)
    (b : Bool) (url : String) : huntOne web links b url ≠ [] :=
  oneRows_ne_nil _ url

theorem hunt_fst (web : String → Option String) (links : String → String → List String)
    (oc : String → Bool) (sites : List String) :
    ∀ r ∈ hunt_emails web links oc sites, r.1 ∈ sites := by
  intro r hr
  rw [hunt_emails] at hr
  obtain ⟨a, ha, hra⟩ := List.mem_flatMap.mp hr
  rw [huntOne_fst web links (oc a) a r hra]
  exact ha

/-- Rows attributed to a seed `s` are exactly what `s`'s own `_one` run
produced, whatever the other sites did. -/
theorem hunt_filter_eq (web : String → Option String) (links : String → String → List String)
    (oc : String → Bool) (sites : List String) (s : String)
    (h1 : s ∈ sites) (h2 : sites.Nodup) :
    (hunt_emails web links oc sites).filter (fun r => r.1 == s) =
      huntOne web links (oc s) s := by
  revert h1 h2
  induction sites with
  | nil => intro h1 _; cases h1
  | cons a rest ih =>
    intro h1 h2
    rw [hunt_emails, List.flatMap_cons, List.filter_append]
    have hnr : rest.Nodup := h2.of_cons
    by_cases has : a = s
    · subst has
      have hsr : a ∉ rest := (List.nodup_cons.mp h2).1
      have hf1 : (huntOne web links (oc a) a).filter (fun r => r.1 == a) =
          huntOne web links (oc a) a := by
        rw [List.filter_eq_self]
        intro r hr
        rw [huntOne_fst web links (oc a) a r hr]
        exact beq_self_eq_true a
      have hf2 : (hunt_emails web links oc rest).filter (fun r => r.1 == a) = [] := by
        rw [List.filter_eq_nil_iff]
        intro r hr
        have hmem := hunt_fst web links oc rest r hr
        simp only [beq_iff_eq]
        intro hc
        rw [hc] at hmem
        exact hsr hmem
      rw [hunt_emails] at hf2
      rw [hf1, hf2, List.append_nil]
    · have hsrest : s ∈ rest := by
        rcases List.mem_cons.mp h1 with rfl | h
        · exact absurd rfl has
        · exact h
      have hf1 : (huntOne web links (oc a) a).filter (fun r => r.1 == s) = [] := by
        rw [List.filter_eq_nil_iff]
        intro r hr
        rw [huntOne_fst web links (oc a) a r hr]
        simp only [beq_iff_eq]
        exact has
      rw [hf1, List.nil_append]
      have := ih hsrest hnr
      rw [hunt_emails] at this
      exact this

/-! ### Claim C1 — timeout handling of partial results -/

/-- C1 (counterexample): crawling `https://a.test` accumulates
`info@a.test` after 1 page, yet when the site is cancelled by the per-site
timeout, `_one`'s except-branch replaces the accumulated set by `set()`,
so the delivered rows are `[(url, "")]` and the partial email is absent —
the claim "the partial email set is kept and returned" is false here. -/
theorem C1_counterexample :
    (crawlLoop webA linksNone MAX_PAGES_PER_SITE MAX_DEPTH (dmn "https://a.test") 1
        (initState "https://a.test")).emails = ["info@a.test"] ∧
    huntOne webA linksNone true "https://a.test" = [("https://a.test", "")] ∧
    ("https://a.test", "info@a.test") ∉ huntOne webA linksNone true "https://a.test" := by
  decide

/-- C1 (amended): when a site's crawl is cancelled by the per-site
wall-clock timeout, the accumulated emails are discarded, not kept: the
result delivered to the batch aggregation is always the single placeholder
row `(url, "")`, regardless of how many pages were processed. -/
theorem C1_amended_thm (web : String → Option String)
    (links : String → String → List String) (url : String) :
    huntOne web links true url = [(url, "")] := rfl

/-! ### Claim C2 — obfuscated address normalization -/

/-- C2 (counterexample): the parenthesized forms the spec lists are not
matched by `OBFUSCATED_RE`: the spec's own example
`"info (at) example [dot] com"` extracts to the empty set, not to
`{info@example.com}`, and `"(dot)"` is likewise unsupported. -/
theorem C2_counterexample :
    extract_emails "info (at) example [dot] com" "example.com" = [] ∧
    extract_emails "info [at] example (dot) com" "example.com" = [] := by
  decide

/-- C2 (amended): `extract` normalizes obfuscated addresses where `@` is
written as `&#64;`, `&commat;`, the whitespace-delimited word " at ", or
`[at]`, and where the host's final dot is written as `.`, an adjacent
`dot`, `[dot]`, or the whitespace-delimited word " dot " — but not the
parenthesized `(at)` / `(dot)` forms.  Supported obfuscations of
`info@example.com` all normalize to the canonical form. -/
theorem C2_amended_thm :
    extract_emails "info [at] example [dot] com" "example.com" = ["info@example.com"] ∧
    extract_emails "a b info&#64;example.com" "example.com" = ["info@example.com"] ∧
    extract_emails "info&commat;example.com" "example.com" = ["info@example.com"] ∧
    extract_emails "info at example dot com" "example.com" = ["info@example.com"] ∧
    extract_emails "info [at] example dot com" "example.com" = ["info@example.com"] ∧
    extract_emails "jane (at) example [dot] com" "example.com" = [] := by
  decide

/-! ### Claim C3 — mailto links dominate -/

/-- C3: whenever the page has at least one `href="mailto:..."` occurrence,
`extract_emails` returns exactly the set of addresses captured by
`MAILTO_RE` — verbatim, with no alias filtering and no domain filtering —
and every plain-text or obfuscated address on the page is ignored. -/
theorem C3_thm (html host : String) (h : MAILTO_findall html ≠ []) :
    extract_emails html host = dedupF (MAILTO_findall html) := by
  have hne : dedupF (MAILTO_findall html) ≠ [] := fun hc => h (dedupF_eq_nil.mp hc)
  simp only [extract_emails]
  rw [if_neg (by simpa [List.isEmpty_iff] using hne)]

/-- C3 (witness): a page with a mailto link and an unrelated plain-text
address returns exactly the mailto capture. -/
theorem C3_witness :
    MAILTO_findall "<a href=\"mailto:x@y.zz\">info@other.org" ≠ [] ∧
    extract_emails "<a href=\"mailto:x@y.zz\">info@other.org" "other.org" =
      dedupF (MAILTO_findall "<a href=\"mailto:x@y.zz\">info@other.org") :=
  ⟨by decide, C3_thm _ _ (by decide)⟩

/-! ### Claim C9 — TLS verification -/

/-- C9 (counterexample): both `sess.get(url, ssl=False)` and
`TCPConnector(..., ssl=False)` hard-code `ssl=False`, so no fetch ever
verifies TLS certificates — contradicting "verification by default with an
explicit opt-out flag". -/
theorem C9_counterexample : fetch_verifies_tls = false := rfl

/-- C9 (amended): TLS certificate verification is unconditionally disabled
for every fetch (`ssl=False` on both the connector and each GET); there is
no opt-out flag because there is nothing to opt out of. -/
theorem C9_amended_thm :
    fetch_ssl_arg = false ∧ connector_ssl_arg = false ∧ fetch_verifies_tls = false :=
  ⟨rfl, rfl, rfl⟩

/-! ### Claim C4 — case-folding -/

/-- C4 (counterexample): addresses are inserted verbatim, never
lower-cased: the seed page `<a href="mailto:INFO@A.TEST">` produces the
output pair `("https://a.test", "INFO@A.TEST")`, and the pair
`("https://a.test", "info@a.test")` claimed by the spec does not occur. -/
theorem C4_counterexample :
    huntOne webB linksNone false "https://a.test" = [("https://a.test", "INFO@A.TEST")] ∧
    ("https://a.test", "info@a.test") ∉ huntOne webB linksNone false "https://a.test" := by
  decide

/-- C4 (amended): extracted addresses keep their original case all the way
to the output relation (lower-casing is used only inside the tier-2 filter
comparisons): the end-to-end run for seed `https://a.test` yields the row
`("https://a.test", "INFO@A.TEST")`. -/
theorem C4_amended_thm :
    extract_emails "<a href=\"mailto:INFO@A.TEST\">" "a.test" = ["INFO@A.TEST"] ∧
    dropDuplicates (hunt_emails webB linksNone (fun _ => false) ["https://a.test"]) =
      [("https://a.test", "INFO@A.TEST")] := by
  decide

/-! ### Claim C5 — tier-2 filtering -/

theorem extract_no_mailto {html host : String} (hm : MAILTO_findall html = []) :
    extract_emails html host =
      (dedupF (EMAIL_findall html ++ OBFUS_normed html)).filter (aliasHostOK host) := by
  conv_lhs => rw [extract_emails, hm]
  rfl

/-- C5: on a page without mailto links, every extracted address has a
lower-cased local part in the fixed role-alias list and (lower-cased) ends
with the supplied site domain string; when the domain contains no `@`,
the address's host part itself ends with the domain; in particular
`ceo@otherdomain.com` is never returned for site `example.com`. -/
theorem C5_thm (html host e : String) (hm : MAILTO_findall html = [])
    (he : e ∈ extract_emails html host) :
    sLower (localPart e) ∈ COMMON_ALIASES ∧
    sEndsWith (sLower e) host = true ∧
    ('@' ∉ host.data → sEndsWith (sLower (hostPart e)) host = true) ∧
    (host = "example.com" → e ≠ "ceo@otherdomain.com") := by
  rw [extract_no_mailto hm] at he
  obtain ⟨hmem, hok⟩ := List.mem_filter.mp he
  rw [aliasHostOK, Bool.and_eq_true] at hok
  obtain ⟨h1, h2⟩ := hok
  have h1' : sLower (localPart e) ∈ COMMON_ALIASES := by simpa using h1
  have hraw : e ∈ EMAIL_findall html ++ OBFUS_normed html := mem_dedupF.mp hmem
  have hat : '@' ∈ e.data := raw_has_at hraw
  refine ⟨h1', h2, ?_, ?_⟩
  · intro hnoat
    rw [sEndsWith] at h2
    have hsuf : host.data <:+ (sLower e).data := of_decide_eq_true h2
    have hsplit := split_at_first_at hat
    have hlower : (sLower e).data =
        (sLower (localPart e)).data ++ '@' :: (sLower (hostPart e)).data := by
      show e.data.map Char.toLower = _
      rw [hsplit, List.map_append, List.map_cons, toLower_at]
      rfl
    rw [hlower] at hsuf
    rw [sEndsWith, decide_eq_true_iff]
    set mlp := (sLower (localPart e)).data with hmlp
    set mhp := (sLower (hostPart e)).data with hmhp
    have hy : mhp <:+ mlp ++ '@' :: mhp := ⟨mlp ++ ['@'], by simp⟩
    rcases le_or_lt host.data.length mhp.length with hle | hlt
    · exact suffix_of_suffix_le hsuf hy hle
    · exfalso
      have hy' : ('@' :: mhp) <:+ mlp ++ '@' :: mhp := ⟨mlp, by simp⟩
      have hsub : ('@' :: mhp) <:+ host.data := by
        refine suffix_of_suffix_le hy' hsuf ?_
        simp only [List.length_cons]
        omega
      exact hnoat (hsub.subset (List.mem_cons_self _ _))
  · rintro rfl rfl
    exact absurd h2 (by decide)

/-- C5 (witness): `info@example.com` on a mailto-free page for site
`example.com` passes the filter and satisfies every conclusion. -/
theorem C5_witness :
    MAILTO_findall "info@example.com ceo@otherdomain.com" = [] ∧
    "info@example.com" ∈
      extract_emails "info@example.com ceo@otherdomain.com" "example.com" ∧
    (sLower (localPart "info@example.com") ∈ COMMON_ALIASES ∧
     sEndsWith (sLower "info@example.com") "example.com" = true ∧
     ('@' ∉ "example.com".data →
       sEndsWith (sLower (hostPart "info@example.com")) "example.com" = true) ∧
     ("example.com" = "example.com" → "info@example.com" ≠ "ceo@otherdomain.com")) :=
  ⟨by decide, by decide,
   C5_thm "info@example.com ceo@otherdomain.com" "example.com" "info@example.com"
     (by decide) (by decide)⟩

/-! ### Claim C6 — Frontier invariants -/

/-- C6: at every point of a site crawl, each queued task's depth is at most
`maxDepth`, its URL is in the visited set and on the site's domain, and
queued URLs are pairwise distinct (idempotent offer); moreover the enqueue
filter of `crawl_site` only appends tasks whose depth is the parent's depth
plus one, whose domain equals the site's domain and whose URL was not yet
visited. -/
theorem C6_thm (web : String → Option String) (links : String → String → List String)
    (maxPages maxDepth : Nat) (root : String) (n : Nat) :
    frontierInv (dmn root) maxDepth
      (crawlLoop web links maxPages maxDepth (dmn root) n (initState root)) ∧
    (∀ (host : String) (depth : Nat) (cand seen : List String)
        (q : List (String × Nat)) (t : String × Nat),
      t ∈ (offerLinks host depth cand seen q).2 →
      t ∈ q ∨ (t.2 = depth + 1 ∧ dmn t.1 = host ∧ t.1 ∉ seen ∧
        startsWithL t.1 "http" = true)) := by
  constructor
  · refine crawlLoop_inv web links maxPages maxDepth (dmn root) n (initState root) ⟨?_, ?_⟩
    · intro t ht
      rcases List.mem_singleton.mp ht with rfl
      exact ⟨Nat.zero_le _, List.mem_singleton.mpr rfl, rfl⟩
    · exact List.nodup_singleton root
  · intro host depth cand seen q t ht
    exact offerLinks_fresh host depth cand seen q t ht

/-- C6 (witness): after one step of the concrete crawl, the queue holds
exactly the fresh in-domain link at depth 1, and the invariant instantiates
to checkable facts about it. -/
theorem C6_witness :
    (("https://a.test/x", 1) : String × Nat) ∈
      (crawlLoop webC linksC 50 3 (dmn "https://a.test") 1 (initState "https://a.test")).q ∧
    (1 ≤ 3 ∧
     "https://a.test/x" ∈
       (crawlLoop webC linksC 50 3 (dmn "https://a.test") 1 (initState "https://a.test")).seen ∧
     dmn "https://a.test/x" = dmn "https://a.test") := by
  refine ⟨by decide, ?_⟩
  exact (C6_thm webC linksC 50 3 "https://a.test" 1).1.1 ("https://a.test/x", 1) (by decide)

/-! ### Claim C7 — page budget and termination -/

/-- C7: for any seed and any `maxPages ≥ 1`, the crawl loop visits at most
`maxPages` pages, stops exactly when the queue empties or the page count
reaches `maxPages`, and terminates: running it with any extra fuel beyond
`maxPages` iterations changes nothing. -/
theorem C7_thm (web : String → Option String) (links : String → String → List String)
    (maxPages maxDepth : Nat) (root : String) (h : 1 ≤ maxPages) :
    (crawlLoop web links maxPages maxDepth (dmn root) maxPages (initState root)).pages
        ≤ maxPages ∧
    ((crawlLoop web links maxPages maxDepth (dmn root) maxPages (initState root)).q = [] ∨
      (crawlLoop web links maxPages maxDepth (dmn root) maxPages (initState root)).pages
        = maxPages) ∧
    (∀ extra, crawlLoop web links maxPages maxDepth (dmn root) (maxPages + extra)
        (initState root) =
      crawlLoop web links maxPages maxDepth (dmn root) maxPages (initState root)) := by
  have hle := crawlLoop_pages_le web links maxPages maxDepth (dmn root) maxPages (initState root)
  have hle' : (crawlLoop web links maxPages maxDepth (dmn root) maxPages
      (initState root)).pages ≤ maxPages := by
    simpa [initState] using hle
  have hstop := crawlLoop_stop web links maxPages maxDepth (dmn root) maxPages (initState root)
    (by simp [initState])
  refine ⟨hle', ?_, ?_⟩
  · rcases hstop with h1 | h1
    · exact Or.inl h1
    · exact Or.inr (le_antisymm hle' h1)
  · intro extra
    exact crawlLoop_stable web links maxPages maxDepth (dmn root) maxPages (initState root)
      (by simp [initState]) extra

/-- C7 (witness): with `maxPages = 2` and `maxDepth = 1` the concrete crawl
stops at 2 pages, and 3 units of extra fuel change nothing. -/
theorem C7_witness :
    1 ≤ 2 ∧
    (crawlLoop webC linksC 2 1 (dmn "https://a.test") 2 (initState "https://a.test")).pages
        ≤ 2 ∧
    ((crawlLoop webC linksC 2 1 (dmn "https://a.test") 2 (initState "https://a.test")).q = [] ∨
      (crawlLoop webC linksC 2 1 (dmn "https://a.test") 2 (initState "https://a.test")).pages
        = 2) ∧
    crawlLoop webC linksC 2 1 (dmn "https://a.test") (2 + 3) (initState "https://a.test") =
      crawlLoop webC linksC 2 1 (dmn "https://a.test") 2 (initState "https://a.test") := by
  have h := C7_thm webC linksC 2 1 "https://a.test" (by decide)
  exact ⟨by decide, h.1, h.2.1, h.2.2 3⟩

/-! ### Claim C8 — failure isolation in the batch -/

/-- C8: the batch always produces its rows as the concatenation of each
seed's own `_one` result; the rows attributed to any seed `s` in a
duplicate-free batch are exactly `s`'s own crawl result, and they depend
only on `s`'s own outcome — changing any sibling's timeout/failure outcome
cannot cancel or alter them. -/
theorem C8_thm (web : String → Option String) (links : String → String → List String)
    (oc : String → Bool) (sites : List String) (s : String)
    (h1 : s ∈ sites) (h2 : sites.Nodup) :
    (hunt_emails web links oc sites).filter (fun r => r.1 == s) =
      huntOne web links (oc s) s ∧
    (∀ oc' : String → Bool, oc' s = oc s →
      (hunt_emails web links oc' sites).filter (fun r => r.1 == s) =
        huntOne web links (oc s) s) := by
  refine ⟨hunt_filter_eq web links oc sites s h1 h2, ?_⟩
  intro oc' hoc'
  rw [← hoc']
  exact hunt_filter_eq web links oc' sites s h1 h2

/-- C8 (witness): in a two-seed batch where the second seed times out, the
first seed's rows are exactly its own crawl result. -/
theorem C8_witness :
    "https://a.test" ∈ (["https://a.test", "https://b.test"] : List String) ∧
    (["https://a.test", "https://b.test"] : List String).Nodup ∧
    (hunt_emails webA linksNone (fun u => u == "https://b.test")
        ["https://a.test", "https://b.test"]).filter (fun r => r.1 == "https://a.test") =
      huntOne webA linksNone ((fun u : String => u == "https://b.test") "https://a.test")
        "https://a.test" := by
  refine ⟨by decide, by decide, ?_⟩
  exact (C8_thm webA linksNone (fun u => u == "https://b.test")
    ["https://a.test", "https://b.test"] "https://a.test" (by decide) (by decide)).1

/-! ### Claim C10 — every seed contributes a row -/

/-- C10: every seed of the batch contributes at least one row to the
deduplicated output relation; a site whose crawl yields no emails — in
particular a timed-out or failed one — contributes exactly the single row
`(url, "")`. -/
theorem C10_thm (web : String → Option String) (links : String → String → List String)
    (oc : String → Bool) (sites : List String) (s : String) (h : s ∈ sites) :
    (∃ e, (s, e) ∈ dropDuplicates (hunt_emails web links oc sites)) ∧
    (∀ url, huntOne web links true url = [(url, "")]) ∧
    (∀ url, crawl_site web links url = [] → huntOne web links false url = [(url, "")]) := by
  refine ⟨?_, fun url => rfl, fun url hc => ?_⟩
  · have hne := huntOne_ne_nil web links (oc s) s
    obtain ⟨r, hr⟩ := List.exists_mem_of_ne_nil _ hne
    have hr1 : r.1 = s := huntOne_fst web links (oc s) s r hr
    refine ⟨r.2, ?_⟩
    rw [mem_dropDuplicates]
    have hrs : (s, r.2) = r := by
      rw [← hr1]
    rw [hrs, hunt_emails]
    exact List.mem_flatMap.mpr ⟨s, h, hr⟩
  · rw [huntOne, if_neg (by simp), hc]
    rfl

/-- C10 (witness): the timed-out seed `https://b.test` still contributes a
row, and empty crawls contribute exactly the placeholder row. -/
theorem C10_witness :
    "https://b.test" ∈ (["https://a.test", "https://b.test"] : List String) ∧
    ((∃ e, ("https://b.test", e) ∈ dropDuplicates (hunt_emails webA linksNone
        (fun u => u == "https://b.test") ["https://a.test", "https://b.test"])) ∧
     (∀ url, huntOne webA linksNone true url = [(url, "")]) ∧
     (∀ url, crawl_site webA linksNone url = [] →
        huntOne webA linksNone false url = [(url, "")])) := by
  refine ⟨by decide, ?_⟩
  exact C10_thm webA linksNone (fun u => u == "https://b.test")
    ["https://a.test", "https://b.test"] "https://b.test" (by decide)
